import Mathlib

/-!
Verification of the psync repository: a shallow embedding of the
`infchan` unbounded channel (src/infchan/infchan.go), of the per-directory
synchronization algorithm `copyDir` and the byte-level `copyFile`
(src/psync.go), and of the engine-level outstanding-job counter
(`sync.WaitGroup` usage in main/copyDir).

The embedding models:
  * the goroutine `infchan` as a labelled transition system `QStep` over
    `QState` (pending = values buffered in the `in` channel, `data` = the
    backing slice, `out` = values emitted on the out channel in order,
    `sent` = ghost history of submitted values);
  * `copyDir` as a pure function from a filesystem model to the list of
    observable events it performs (warnings, mkdir, file copies, WaitGroup
    Add/Done, job submissions);
  * the engine as a transition system over (counter, pending jobs,
    in-flight per-job event traces).
-/

namespace Psync

/-! ## Part 1: the infchan unbounded channel (src/infchan/infchan.go) -/

/-- Phase of the `infchan` goroutine: inside the reader loop, inside the
final writer (drain) loop, or terminated after `close(out)`. -/
inductive Phase where
  | reading
  | draining
  | done
deriving DecidableEq

/-- State of the infchan system.  `pending` are the values sitting in the
buffered `in` channel (producer side appends, goroutine consumes from the
front, as a Go channel is FIFO); `closed` records whether the producer has
closed the send channel; `data` is the backing slice of the goroutine;
`out` is the ordered list of values emitted on the `out` channel so far;
`sent` is the ghost list of all values ever submitted, in submission
order; `phase` is the goroutine phase. -/
structure QState (T : Type) where
  pending : List T
  closed : Bool
  data : List T
  out : List T
  sent : List T
  phase : Phase
deriving DecidableEq

/-- Initial state: nothing sent, channel open, goroutine in its reader
loop with an empty backing slice. -/
def initQ (T : Type) : QState T :=
  ⟨[], false, [], [], [], Phase.reading⟩

/-- Helper for the LIFO branch of the select: the element the goroutine
emits, `data[len(data)-1]`, for a nonempty slice `x :: xs`. -/
def lastElem {T : Type} : T → List T → T
  | x, [] => x
  | _, y :: ys => lastElem y ys

/-- Single steps of the infchan system, translated from the body of
`infchan` in src/infchan/infchan.go together with the producer actions
(send / close on the `in` channel).

  * `send` / `close`: producer actions, possible while the channel is open.
  * `takeEmpty`: `len(data) == 0`, `t, ok := <-in` with `ok`:
    `data = append(data, t)`.
  * `breakEmpty`: `len(data) == 0`, receive reports closed (`!ok`, which in
    Go requires the buffer to be empty and the channel closed): `break`.
  * `recvSel` / `breakSel` / `emitSel`: the three outcomes of the
    `select` when `len(data) > 0`; the emitted index is `0` in FIFO mode
    and `len(data)-1` otherwise, and the emitted element is dropped
    (`data[1:]` resp. `data[:index]`).
  * `drainStep` / `finish`: the final writer loop `for _, t := range data`
    followed by `close(out)`. -/
inductive QStep (fifo : Bool) {T : Type} : QState T → QState T → Prop where
  | send (t : T) (p d o sn ph) :
      QStep fifo ⟨p, false, d, o, sn, ph⟩ ⟨p ++ [t], false, d, o, sn ++ [t], ph⟩
  | close (p d o sn ph) :
      QStep fifo ⟨p, false, d, o, sn, ph⟩ ⟨p, true, d, o, sn, ph⟩
  | takeEmpty (t ts cl o sn) :
      QStep fifo ⟨t :: ts, cl, [], o, sn, Phase.reading⟩
        ⟨ts, cl, [t], o, sn, Phase.reading⟩
  | breakEmpty (o sn) :
      QStep fifo ⟨[], true, [], o, sn, Phase.reading⟩
        ⟨[], true, [], o, sn, Phase.draining⟩
  | recvSel (t ts cl x xs o sn) :
      QStep fifo ⟨t :: ts, cl, x :: xs, o, sn, Phase.reading⟩
        ⟨ts, cl, (x :: xs) ++ [t], o, sn, Phase.reading⟩
  | breakSel (x xs o sn) :
      QStep fifo ⟨[], true, x :: xs, o, sn, Phase.reading⟩
        ⟨[], true, x :: xs, o, sn, Phase.draining⟩
  | emitSel (p cl x xs o sn) :
      QStep fifo ⟨p, cl, x :: xs, o, sn, Phase.reading⟩
        ⟨p, cl, cond fifo xs (x :: xs).dropLast,
          o ++ [cond fifo x (lastElem x xs)], sn, Phase.reading⟩
  | drainStep (p cl x xs o sn) :
      QStep fifo ⟨p, cl, x :: xs, o, sn, Phase.draining⟩
        ⟨p, cl, xs, o ++ [x], sn, Phase.draining⟩
  | finish (p cl o sn) :
      QStep fifo ⟨p, cl, [], o, sn, Phase.draining⟩
        ⟨p, cl, [], o, sn, Phase.done⟩

/-- Reachability of an infchan state from the initial state. -/
def QReach (fifo : Bool) {T : Type} (s : QState T) : Prop :=
  Relation.ReflTransGen (QStep fifo) (initQ T) s

/-- Dropping the last element and re-appending it reconstructs the list. -/
theorem dropLast_lastElem {T : Type} (x : T) (xs : List T) :
    (x :: xs).dropLast ++ [lastElem x xs] = x :: xs := by
  induction xs generalizing x with
  | nil => rfl
  | cons y ys ih =>
      show x :: ((y :: ys).dropLast ++ [lastElem y ys]) = x :: y :: ys
      rw [ih y]

/-- Invariant of the infchan system: the submitted values are, up to
permutation, exactly the emitted values plus the backing slice plus the
values still buffered in the in channel; once the reader loop has been
left the channel is closed with an empty buffer; at phase `done` the
backing slice is empty; and in FIFO mode the equation holds as lists, in
order. -/
def QInv (fifo : Bool) {T : Type} (s : QState T) : Prop :=
  s.sent.Perm (s.out ++ s.data ++ s.pending) ∧
  (s.phase ≠ Phase.reading → s.closed = true ∧ s.pending = []) ∧
  (s.phase = Phase.done → s.data = []) ∧
  (fifo = true → s.sent = s.out ++ s.data ++ s.pending)

theorem qInv_init (fifo : Bool) (T : Type) : QInv fifo (initQ T) := by
  refine ⟨by simp [initQ], ?_, ?_, ?_⟩ <;> simp [initQ]

theorem qInv_step {fifo : Bool} {T : Type} {s s' : QState T}
    (h : QStep fifo s s') (hinv : QInv fifo s) : QInv fifo s' := by
  obtain ⟨hperm, hph, hdone, hord⟩ := hinv
  cases h with
  | send t p d o sn ph =>
      have hperm2 : sn.Perm (o ++ d ++ p) := hperm
      have hphr : ph = Phase.reading := by
        by_contra hne
        exact Bool.false_ne_true (hph hne).1
      subst hphr
      refine ⟨?_, ?_, ?_, ?_⟩
      · show (sn ++ [t]).Perm (o ++ d ++ (p ++ [t]))
        have h1 := hperm2.append_right [t]
        simpa [List.append_assoc] using h1
      · intro hne; exact absurd rfl hne
      · intro hd; exact Phase.noConfusion hd
      · intro hf
        have h3 : sn = o ++ d ++ p := hord hf
        show sn ++ [t] = o ++ d ++ (p ++ [t])
        rw [h3]; simp [List.append_assoc]
  | close p d o sn ph =>
      have hperm2 : sn.Perm (o ++ d ++ p) := hperm
      have hpend : ph ≠ Phase.reading → p = [] := fun hne => (hph hne).2
      exact ⟨hperm2, fun hne => ⟨rfl, hpend hne⟩, hdone, hord⟩
  | takeEmpty t ts cl o sn =>
      have hperm2 : sn.Perm (o ++ [] ++ (t :: ts)) := hperm
      refine ⟨?_, ?_, ?_, ?_⟩
      · show sn.Perm (o ++ [t] ++ ts)
        simpa using hperm2
      · intro hne; exact absurd rfl hne
      · intro hd; exact Phase.noConfusion hd
      · intro hf
        have h3 : sn = o ++ [] ++ (t :: ts) := hord hf
        show sn = o ++ [t] ++ ts
        simpa using h3
  | breakEmpty o sn =>
      have hperm2 : sn.Perm (o ++ [] ++ []) := hperm
      exact ⟨hperm2, fun _ => ⟨rfl, rfl⟩, fun hd => rfl, fun hf => hord hf⟩
  | recvSel t ts cl x xs o sn =>
      have hperm2 : sn.Perm (o ++ (x :: xs) ++ (t :: ts)) := hperm
      refine ⟨?_, ?_, ?_, ?_⟩
      · show sn.Perm (o ++ ((x :: xs) ++ [t]) ++ ts)
        simpa [List.append_assoc] using hperm2
      · intro hne; exact absurd rfl hne
      · intro hd; exact Phase.noConfusion hd
      · intro hf
        have h3 : sn = o ++ (x :: xs) ++ (t :: ts) := hord hf
        show sn = o ++ ((x :: xs) ++ [t]) ++ ts
        simpa [List.append_assoc] using h3
  | breakSel x xs o sn =>
      have hperm2 : sn.Perm (o ++ (x :: xs) ++ []) := hperm
      exact ⟨hperm2, fun _ => ⟨rfl, rfl⟩, fun hd => Phase.noConfusion hd,
        fun hf => hord hf⟩
  | emitSel p cl x xs o sn =>
      have hperm2 : sn.Perm (o ++ (x :: xs) ++ p) := hperm
      refine ⟨?_, ?_, ?_, ?_⟩
      · show sn.Perm ((o ++ [cond fifo x (lastElem x xs)]) ++
          (cond fifo xs (x :: xs).dropLast) ++ p)
        cases fifo with
        | true =>
            show sn.Perm ((o ++ [x]) ++ xs ++ p)
            simpa [List.append_assoc] using hperm2
        | false =>
            show sn.Perm ((o ++ [lastElem x xs]) ++ (x :: xs).dropLast ++ p)
            refine hperm2.trans ?_
            have h2 := ((List.perm_append_comm :
              ((x :: xs).dropLast ++ [lastElem x xs]).Perm
                ([lastElem x xs] ++ (x :: xs).dropLast)).append_left o).append_right p
            rw [dropLast_lastElem] at h2
            simpa [List.append_assoc] using h2
      · intro hne; exact absurd rfl hne
      · intro hd; exact Phase.noConfusion hd
      · intro hf
        subst hf
        have h3 : sn = o ++ (x :: xs) ++ p := hord rfl
        show sn = (o ++ [x]) ++ xs ++ p
        rw [h3]; simp [List.append_assoc]
  | drainStep p cl x xs o sn =>
      have hperm2 : sn.Perm (o ++ (x :: xs) ++ p) := hperm
      have hcl : cl = true ∧ p = [] := hph (fun hh => Phase.noConfusion hh)
      refine ⟨?_, ?_, ?_, ?_⟩
      · show sn.Perm ((o ++ [x]) ++ xs ++ p)
        simpa [List.append_assoc] using hperm2
      · intro _; exact hcl
      · intro hd; exact Phase.noConfusion hd
      · intro hf
        have h3 : sn = o ++ (x :: xs) ++ p := hord hf
        show sn = (o ++ [x]) ++ xs ++ p
        rw [h3]; simp [List.append_assoc]
  | finish p cl o sn =>
      have hperm2 : sn.Perm (o ++ [] ++ p) := hperm
      have hcl : cl = true ∧ p = [] := hph (fun hh => Phase.noConfusion hh)
      exact ⟨hperm2, fun _ => hcl, fun _ => rfl, fun hf => hord hf⟩

theorem qInv_reach {fifo : Bool} {T : Type} {s : QState T}
    (h : QReach fifo s) : QInv fifo s := by
  induction h with
  | refl => exact qInv_init fifo T
  | tail _ hstep ih => exact qInv_step hstep ih

/-- Schedule actions used to drive the infchan system on concrete inputs
(one action per `QStep` constructor; `brk` covers both break steps). -/
inductive QAct (T : Type) where
  | send (t : T)
  | close
  | take
  | brk
  | recv
  | emit
  | drain
  | finish

/-- Apply one schedule action to a state: performs the corresponding
`QStep` when it is enabled and leaves the state unchanged otherwise. -/
def qApply (fifo : Bool) {T : Type} (s : QState T) : QAct T → QState T
  | QAct.send t =>
      match s with
      | ⟨p, false, d, o, sn, ph⟩ => ⟨p ++ [t], false, d, o, sn ++ [t], ph⟩
      | _ => s
  | QAct.close =>
      match s with
      | ⟨p, false, d, o, sn, ph⟩ => ⟨p, true, d, o, sn, ph⟩
      | _ => s
  | QAct.take =>
      match s with
      | ⟨t :: ts, cl, [], o, sn, Phase.reading⟩ => ⟨ts, cl, [t], o, sn, Phase.reading⟩
      | _ => s
  | QAct.brk =>
      match s with
      | ⟨[], true, d, o, sn, Phase.reading⟩ => ⟨[], true, d, o, sn, Phase.draining⟩
      | _ => s
  | QAct.recv =>
      match s with
      | ⟨t :: ts, cl, x :: xs, o, sn, Phase.reading⟩ =>
          ⟨ts, cl, (x :: xs) ++ [t], o, sn, Phase.reading⟩
      | _ => s
  | QAct.emit =>
      match s with
      | ⟨p, cl, x :: xs, o, sn, Phase.reading⟩ =>
          ⟨p, cl, cond fifo xs (x :: xs).dropLast,
            o ++ [cond fifo x (lastElem x xs)], sn, Phase.reading⟩
      | _ => s
  | QAct.drain =>
      match s with
      | ⟨p, cl, x :: xs, o, sn, Phase.draining⟩ => ⟨p, cl, xs, o ++ [x], sn, Phase.draining⟩
      | _ => s
  | QAct.finish =>
      match s with
      | ⟨p, cl, [], o, sn, Phase.draining⟩ => ⟨p, cl, [], o, sn, Phase.done⟩
      | _ => s

theorem qApply_step (fifo : Bool) {T : Type} (s : QState T) (a : QAct T) :
    qApply fifo s a = s ∨ QStep fifo s (qApply fifo s a) := by
  obtain ⟨p, cl, d, o, sn, ph⟩ := s
  cases a <;> cases cl <;> rcases ph with _ | _ | _ <;>
    rcases d with _ | ⟨x, xs⟩ <;> rcases p with _ | ⟨t, ts⟩ <;>
    first
      | exact Or.inr (QStep.send _ _ _ _ _ _)
      | exact Or.inr (QStep.close _ _ _ _ _)
      | exact Or.inr (QStep.takeEmpty _ _ _ _ _)
      | exact Or.inr (QStep.breakEmpty _ _)
      | exact Or.inr (QStep.breakSel _ _ _ _)
      | exact Or.inr (QStep.recvSel _ _ _ _ _ _ _)
      | exact Or.inr (QStep.emitSel _ _ _ _ _ _)
      | exact Or.inr (QStep.drainStep _ _ _ _ _ _)
      | exact Or.inr (QStep.finish _ _ _ _)
      | exact Or.inl rfl

/-- Run a whole schedule of actions from a state. -/
def qExec (fifo : Bool) {T : Type} : QState T → List (QAct T) → QState T
  | s, [] => s
  | s, a :: rest => qExec fifo (qApply fifo s a) rest

theorem qExec_reach (fifo : Bool) {T : Type} (s : QState T) (acts : List (QAct T)) :
    Relation.ReflTransGen (QStep fifo) s (qExec fifo s acts) := by
  induction acts generalizing s with
  | nil => exact Relation.ReflTransGen.refl
  | cons a rest ih =>
      rcases qApply_step fifo s a with heq | hstep
      · show Relation.ReflTransGen (QStep fifo) s (qExec fifo (qApply fifo s a) rest)
        rw [heq]; exact ih s
      · exact Relation.ReflTransGen.head hstep (ih (qApply fifo s a))

/-- C1: for every finite sequence of jobs submitted to the queue, in FIFO
or LIFO mode, with the submit side closed and the retrieve side fully
drained (phase `done`), the multiset of delivered jobs equals the multiset
of submitted jobs: nothing lost, nothing duplicated. -/
theorem infchan_no_loss_no_dup (fifo : Bool) {T : Type} (s : QState T)
    (h : QReach fifo s) (hdone : s.phase = Phase.done) :
    Multiset.ofList s.out = Multiset.ofList s.sent := by
  obtain ⟨hperm, hph, hdata, _⟩ := qInv_reach h
  have hpend : s.pending = [] :=
    (hph (by rw [hdone]; exact fun hh => Phase.noConfusion hh)).2
  have hd : s.data = [] := hdata hdone
  have hout : s.sent.Perm s.out := by simpa [hpend, hd] using hperm
  exact Multiset.coe_eq_coe.mpr hout.symm

/-- Concrete LIFO run used to instantiate `infchan_no_loss_no_dup`. -/
def c1Run : QState Nat :=
  qExec false (initQ Nat)
    [QAct.send 7, QAct.send 9, QAct.close, QAct.take, QAct.recv, QAct.brk,
     QAct.drain, QAct.drain, QAct.finish]

theorem infchan_no_loss_no_dup_witness :
    c1Run.phase = Phase.done ∧
      Multiset.ofList c1Run.out = Multiset.ofList c1Run.sent :=
  ⟨rfl, infchan_no_loss_no_dup false c1Run (qExec_reach false (initQ Nat) _) rfl⟩

/-- C7: in FIFO mode, for every schedule (in particular every
single-producer/single-consumer schedule in which all submissions precede
the close), a fully drained run delivers exactly the submitted sequence in
submission order. -/
theorem infchan_fifo_order {T : Type} (s : QState T)
    (h : QReach true s) (hdone : s.phase = Phase.done) :
    s.out = s.sent := by
  obtain ⟨_, hph, hdata, hord⟩ := qInv_reach h
  have hpend : s.pending = [] :=
    (hph (by rw [hdone]; exact fun hh => Phase.noConfusion hh)).2
  have hd : s.data = [] := hdata hdone
  have hsent := hord rfl
  rw [hd, hpend] at hsent
  simpa using hsent.symm

/-- Schedule realizing the specification scenario: submit 0..24 in order,
close, drain everything. -/
def fifoSched : List (QAct Nat) :=
  ((List.range 25).map QAct.send) ++ [QAct.close, QAct.take] ++
    (List.replicate 24 QAct.recv) ++ [QAct.brk] ++
    (List.replicate 25 QAct.drain) ++ [QAct.finish]

/-- End state of the 0..24 FIFO scenario. -/
def c7Run : QState Nat := qExec true (initQ Nat) fifoSched

theorem infchan_fifo_order_witness :
    c7Run.phase = Phase.done ∧ c7Run.out = c7Run.sent ∧
      c7Run.sent = List.range 25 ∧ c7Run.out.sum = 300 :=
  ⟨rfl, infchan_fifo_order c7Run (qExec_reach true (initQ Nat) fifoSched) rfl,
    by decide, by decide⟩

/-- Formalization of claim C6 exactly as stated: after the submit side is
closed, the jobs still held in the backing store are delivered in the
order of normal operation — oldest-first when `fifo` is true, newest-first
otherwise — and then the retrieve side is marked drained. -/
def drainOrderClaim : Prop :=
  ∀ (fifo : Bool) (s t : QState Nat), QReach fifo s → s.phase = Phase.draining →
    Relation.ReflTransGen (QStep fifo) s t → t.phase = Phase.done →
    t.out = s.out ++ (cond fifo s.data s.data.reverse)

/-- Start state of the LIFO counterexample run: 0 and 1 submitted, channel
closed, both values moved into the backing store, reader loop left. -/
def c6S : QState Nat :=
  qExec false (initQ Nat)
    [QAct.send 0, QAct.send 1, QAct.close, QAct.take, QAct.recv, QAct.brk]

/-- End state of the LIFO counterexample run: backing store drained. -/
def c6T : QState Nat := qExec false c6S [QAct.drain, QAct.drain, QAct.finish]

/-- C6 counterexample: in LIFO mode the post-close drain is NOT
newest-first.  With backing store [0, 1] the drain delivers [0, 1]
(slice order), not [1, 0]. -/
theorem infchan_drain_order_cex : ¬ drainOrderClaim := by
  intro hcl
  have h := hcl false c6S c6T (qExec_reach false (initQ Nat) _) rfl
    (qExec_reach false c6S _) rfl
  exact absurd h (by decide)

/-- After the goroutine has terminated (phase `done`, channel closed), no
further step is possible: the state is frozen. -/
theorem drain_frozen {fifo : Bool} {T : Type} {s t : QState T}
    (h : Relation.ReflTransGen (QStep fifo) s t) :
    s.closed = true → s.phase = Phase.done → t = s := by
  induction h using Relation.ReflTransGen.head_induction_on with
  | refl => intro _ _; rfl
  | head hstep hrest ih =>
      intro hcl hph
      cases hstep with
      | send t p d o sn ph => exact absurd hcl (by simp)
      | close p d o sn ph => exact absurd hcl (by simp)
      | takeEmpty t ts cl o sn => exact Phase.noConfusion hph
      | breakEmpty o sn => exact Phase.noConfusion hph
      | recvSel t ts cl x xs o sn => exact Phase.noConfusion hph
      | breakSel x xs o sn => exact Phase.noConfusion hph
      | emitSel p cl x xs o sn => exact Phase.noConfusion hph
      | drainStep p cl x xs o sn => exact Phase.noConfusion hph
      | finish p cl o sn => exact Phase.noConfusion hph

theorem drain_slice_order_aux {fifo : Bool} {T : Type} {s t : QState T}
    (h : Relation.ReflTransGen (QStep fifo) s t) :
    s.closed = true → s.phase = Phase.draining → t.phase = Phase.done →
    t.out = s.out ++ s.data := by
  induction h using Relation.ReflTransGen.head_induction_on with
  | refl =>
      intro _ hph hdone
      rw [hph] at hdone
      exact Phase.noConfusion hdone
  | head hstep hrest ih =>
      intro hcl hph hdone
      cases hstep with
      | send t p d o sn ph => exact absurd hcl (by simp)
      | close p d o sn ph => exact absurd hcl (by simp)
      | takeEmpty t ts cl o sn => exact Phase.noConfusion hph
      | breakEmpty o sn => exact Phase.noConfusion hph
      | recvSel t ts cl x xs o sn => exact Phase.noConfusion hph
      | breakSel x xs o sn => exact Phase.noConfusion hph
      | emitSel p cl x xs o sn => exact Phase.noConfusion hph
      | drainStep p cl x xs o sn =>
          have h2 := ih hcl rfl hdone
          simpa [List.append_assoc] using h2
      | finish p cl o sn =>
          have h2 := drain_frozen hrest hcl rfl
          rw [h2]
          simp

/-- C6 amended: after the submit side is closed and the reader loop has
been left, the queue delivers the jobs still held in its backing store in
slice order — oldest-first in BOTH modes (the final writer loop is always
FIFO) — and then marks the retrieve side drained. -/
theorem infchan_drain_slice_order (fifo : Bool) {T : Type} (s t : QState T)
    (h : QReach fifo s) (hph : s.phase = Phase.draining)
    (hsteps : Relation.ReflTransGen (QStep fifo) s t)
    (hdone : t.phase = Phase.done) :
    t.out = s.out ++ s.data := by
  obtain ⟨_, hphInv, _, _⟩ := qInv_reach h
  have hcl : s.closed = true :=
    (hphInv (by rw [hph]; exact fun hh => Phase.noConfusion hh)).1
  exact drain_slice_order_aux hsteps hcl hph hdone

/-- Concrete LIFO run instantiating the amended drain-order theorem. -/
def c6S2 : QState Nat :=
  qExec false (initQ Nat)
    [QAct.send 4, QAct.send 5, QAct.close, QAct.take, QAct.recv, QAct.brk]

/-- Drained end state of that run. -/
def c6T2 : QState Nat := qExec false c6S2 [QAct.drain, QAct.drain, QAct.finish]

theorem infchan_drain_slice_order_witness :
    c6S2.phase = Phase.draining ∧ c6T2.phase = Phase.done ∧
      c6T2.out = c6S2.out ++ c6S2.data :=
  ⟨rfl, rfl,
    infchan_drain_slice_order false c6S2 c6T2 (qExec_reach false (initQ Nat) _) rfl
      (qExec_reach false c6S2 _) rfl⟩

/-! ## Part 2: the per-directory synchronization algorithm (src/psync.go)

`copyDir` is embedded as a pure function from a filesystem model to the
list of observable events of one job.  Paths are lists of components
relative to the two roots: the Go string `dir + "/" + fname` becomes
`dir ++ [fname]`.  Verbose-mode progress printing (stdout) is not an
event; warnings (stderr) are. -/

/-- A directory entry as returned by ioutil.ReadDir: its name and whether
it is a directory.  Symbolic links and special files take the
non-directory branch of copyDir exactly like regular files, so no extra
field is needed at this level (the byte-level copyFile model is Part 3). -/
structure Entry where
  name : String
  isDir : Bool
deriving DecidableEq

/-- The psync options consulted by copyDir.  The thread count and verbose
flag only affect scheduling and progress logging. -/
structure Config where
  optSync : Bool
  optQuiet : Bool
  optOwner : Bool
  optTimes : Bool

/-- Filesystem model: result of listing the source directory `src+dir`
and the destination directory `dest+dir` (`none` = ReadDir error),
whether `os.Mkdir` of a destination path succeeds, and whether
`os.Stat(src+dir)` succeeds. -/
structure FS where
  srcList : List String → Option (List Entry)
  destList : List String → Option (List Entry)
  mkdirOk : List String → Bool
  statOk : List String → Bool

/-- Observable events of one copyDir run: a WARNING on stderr, wg.Done(),
wg.Add(1), submitting a child job on the dispatcher channel, creating a
destination directory, copying one file/symlink/special entry, and the
directory-level owner/timestamp preservation calls (whose internal
chown/chtimes warnings are not modelled; no claim concerns them). -/
inductive Event where
  | warn
  | done
  | add
  | submit (p : List String)
  | mkdir (p : List String)
  | copy (p : List String)
  | preserveOwner
  | preserveTimes
deriving DecidableEq

/-- The `if !optQuiet { fmt.Fprintf(os.Stderr, "WARNING ...") }` pattern. -/
def warnUnless (quiet : Bool) : List Event :=
  if quiet then [] else [Event.warn]

/-- Go map access `desthash[fname]`: the destination entry of that name,
if any (ReadDir returns unique names, so first match = map lookup). -/
def lookupDest (dh : List Entry) (n : String) : Option Entry :=
  dh.find? (fun e => e.name == n)

/-- Go condition `desthash[fname] != nil && desthash[fname].IsDir()`; the
guard in the source is its negation disjoined with `!optSync`. -/
def destDirExists (dh : List Entry) (n : String) : Bool :=
  match lookupDest dh n with
  | some e => e.isDir
  | none => false

/-- Events of the body of the per-entry loop in copyDir (src/psync.go):
entries named "." or ".." are skipped; a directory entry is created
unless `optSync && desthash[fname] != nil && desthash[fname].IsDir()`
(on mkdir failure only this subtree is skipped), and then the child job
is submitted with wg.Add(1) first; a non-directory entry is copied when
`!optSync || desthash[fname] == nil`. -/
def entryEvents (cfg : Config) (fs : FS) (dir : List String) (dh : List Entry)
    (f : Entry) : List Event :=
  if f.name = "." ∨ f.name = ".." then []
  else if f.isDir then
    if !cfg.optSync || !destDirExists dh f.name then
      if fs.mkdirOk (dir ++ [f.name]) then
        [Event.mkdir (dir ++ [f.name]), Event.add, Event.submit (dir ++ [f.name])]
      else warnUnless cfg.optQuiet
    else [Event.add, Event.submit (dir ++ [f.name])]
  else
    if !cfg.optSync || (lookupDest dh f.name).isNone then
      [Event.copy (dir ++ [f.name])]
    else []

/-- Events of the trailing `os.Stat(src+dir)` / preserveOwner /
preserveTimes block of copyDir. -/
def statEvents (cfg : Config) (fs : FS) (dir : List String) : List Event :=
  if fs.statOk dir then
    (if cfg.optOwner then [Event.preserveOwner] else []) ++
      (if cfg.optTimes then [Event.preserveTimes] else [])
  else warnUnless cfg.optQuiet

/-- Body of a copyDir run that passed the listing phase: the single loop
over the source entries, in listing order, then the stat block. -/
def bodyEvents (cfg : Config) (fs : FS) (dir : List String) (files : List Entry)
    (dh : List Entry) : List Event :=
  (files.flatMap (entryEvents cfg fs dir dh)) ++ statEvents cfg fs dir

/-- The destination snapshot (`desthash`) used by a copyDir run: in sync
mode the destination listing (failure aborts the job), otherwise the
empty map (the Go code creates an empty map and never fills it). -/
def snapshotOf (cfg : Config) (fs : FS) (dir : List String) : Option (List Entry) :=
  if cfg.optSync then fs.destList dir else some []

/-- One full copyDir job for directory `dir` (src/psync.go lines
151-245), as the list of its observable events: a failed source listing
or (in sync mode) a failed destination listing abandons the job with a
warning and the single wg.Done(); otherwise the entry loop runs, then the
stat block, then wg.Done(). -/
def copyDir (cfg : Config) (fs : FS) (dir : List String) : List Event :=
  match fs.srcList dir with
  | none => warnUnless cfg.optQuiet ++ [Event.done]
  | some files =>
    match snapshotOf cfg fs dir with
    | none => warnUnless cfg.optQuiet ++ [Event.done]
    | some dh => bodyEvents cfg fs dir files dh ++ [Event.done]

def isDone : Event → Bool
  | Event.done => true
  | _ => false

def isAdd : Event → Bool
  | Event.add => true
  | _ => false

def isSubmit : Event → Bool
  | Event.submit _ => true
  | _ => false

def isMkdir : Event → Bool
  | Event.mkdir _ => true
  | _ => false

def isCopy : Event → Bool
  | Event.copy _ => true
  | _ => false

def isWarn : Event → Bool
  | Event.warn => true
  | _ => false

theorem copyDir_eq_body {cfg : Config} {fs : FS} {dir : List String}
    {files dh : List Entry} (hsrc : fs.srcList dir = some files)
    (hsnap : snapshotOf cfg fs dir = some dh) :
    copyDir cfg fs dir = bodyEvents cfg fs dir files dh ++ [Event.done] := by
  unfold copyDir
  rw [hsrc, hsnap]

/-- C8: in sync mode, when the source listing succeeds but the
destination listing fails, the whole job is abandoned: the trace is
exactly one warning (suppressed when quiet) followed by the single
wg.Done() — no directory created, no entry copied, no child job
submitted, and the outstanding counter decremented exactly once. -/
theorem sync_destlist_fail_abandons (cfg : Config) (fs : FS) (dir : List String)
    (files : List Entry) (hsync : cfg.optSync = true)
    (hsrc : fs.srcList dir = some files) (hdest : fs.destList dir = none) :
    copyDir cfg fs dir = warnUnless cfg.optQuiet ++ [Event.done] ∧
    (copyDir cfg fs dir).countP isMkdir = 0 ∧
    (copyDir cfg fs dir).countP isCopy = 0 ∧
    (copyDir cfg fs dir).countP isSubmit = 0 ∧
    (copyDir cfg fs dir).countP isWarn = (if cfg.optQuiet then 0 else 1) ∧
    (copyDir cfg fs dir).countP isDone = 1 := by
  have hsnap : snapshotOf cfg fs dir = none := by
    unfold snapshotOf
    rw [hsync, hdest]
    rfl
  have heq : copyDir cfg fs dir = warnUnless cfg.optQuiet ++ [Event.done] := by
    unfold copyDir
    rw [hsrc, hsnap]
  rw [heq]
  unfold warnUnless
  by_cases hq : cfg.optQuiet = true <;>
    simp [hq, List.countP_cons, isMkdir, isCopy, isSubmit, isWarn, isDone]

/-- Witness data for the abandoned-job claim: a sync-mode run whose
destination listing fails. -/
def wFSDestFail : FS :=
  ⟨fun d => if d = [] then some [⟨"a", false⟩] else none,
   fun _ => none, fun _ => true, fun _ => true⟩

/-- Sync-mode, non-quiet configuration used by several witnesses. -/
def wCfgSync : Config := ⟨true, false, false, false⟩

theorem sync_destlist_fail_abandons_witness :
    copyDir wCfgSync wFSDestFail [] = [Event.warn, Event.done] ∧
      (copyDir wCfgSync wFSDestFail []).countP isSubmit = 0 ∧
      (copyDir wCfgSync wFSDestFail []).countP isDone = 1 := by
  have h := sync_destlist_fail_abandons wCfgSync wFSDestFail [] [⟨"a", false⟩]
    rfl (by simp [wFSDestFail]) rfl
  exact ⟨h.1.trans (by rfl), h.2.2.2.1, h.2.2.2.2.2⟩

theorem statEvents_counts (cfg : Config) (fs : FS) (dir : List String) :
    (statEvents cfg fs dir).countP isMkdir = 0 ∧
    (statEvents cfg fs dir).countP isCopy = 0 ∧
    (statEvents cfg fs dir).countP isDone = 0 ∧
    (statEvents cfg fs dir).countP isAdd = 0 ∧
    (statEvents cfg fs dir).countP isSubmit = 0 := by
  unfold statEvents warnUnless
  by_cases h1 : fs.statOk dir = true <;>
    by_cases h2 : cfg.optOwner = true <;>
      by_cases h3 : cfg.optTimes = true <;>
        by_cases h4 : cfg.optQuiet = true <;>
          simp [h1, h2, h3, h4, List.countP_cons, List.countP_append,
            isMkdir, isCopy, isDone, isAdd, isSubmit]

/-- In sync mode, an entry covered by the destination snapshot (any entry
for files, a directory entry for directories) produces neither a mkdir
nor a copy event. -/
theorem entry_noop (cfg : Config) (fs : FS) (dir : List String) (dfs : List Entry)
    (f : Entry) (hsync : cfg.optSync = true)
    (hcov : ¬(f.name = "." ∨ f.name = "..") →
      ∃ e, lookupDest dfs f.name = some e ∧ (f.isDir = true → e.isDir = true)) :
    (entryEvents cfg fs dir dfs f).countP isMkdir = 0 ∧
    (entryEvents cfg fs dir dfs f).countP isCopy = 0 := by
  unfold entryEvents
  by_cases hdot : (f.name = "." ∨ f.name = "..")
  · simp [hdot]
  · obtain ⟨e, he, hed⟩ := hcov hdot
    by_cases hd : f.isDir = true
    · have hdd : destDirExists dfs f.name = true := by
        unfold destDirExists
        rw [he]
        exact hed hd
      simp [hdot, hd, hsync, hdd, List.countP_cons, isMkdir, isCopy]
    · have hnone : (lookupDest dfs f.name).isNone = false := by
        rw [he]; rfl
      simp [hdot, hd, hsync, hnone]

theorem flatMap_noop (cfg : Config) (fs : FS) (dir : List String) (dfs : List Entry)
    (hsync : cfg.optSync = true) :
    ∀ files : List Entry,
      (∀ f ∈ files, ¬(f.name = "." ∨ f.name = "..") →
        ∃ e, lookupDest dfs f.name = some e ∧ (f.isDir = true → e.isDir = true)) →
      (files.flatMap (entryEvents cfg fs dir dfs)).countP isMkdir = 0 ∧
      (files.flatMap (entryEvents cfg fs dir dfs)).countP isCopy = 0 := by
  intro files
  induction files with
  | nil => intro _; simp
  | cons f rest ih =>
      intro hcov
      have hent := entry_noop cfg fs dir dfs f hsync (hcov f (List.mem_cons_self f rest))
      have hrest := ih (fun g hg hdot => hcov g (List.mem_cons_of_mem f hg) hdot)
      simp [List.flatMap_cons, List.countP_append, hent.1, hent.2, hrest.1, hrest.2]

/-- C4: in sync mode, when every non-dot source entry already has a
same-named destination entry (a directory one for subdirectory entries) —
the situation after a prior run of the engine — copyDir performs no mkdir
and no copy: the second run creates zero new destination entries. -/
theorem syncMode_second_run_noop (cfg : Config) (fs : FS) (dir : List String)
    (files dfs : List Entry) (hsync : cfg.optSync = true)
    (hsrc : fs.srcList dir = some files) (hdest : fs.destList dir = some dfs)
    (hcov : ∀ f ∈ files, ¬(f.name = "." ∨ f.name = "..") →
      ∃ e, lookupDest dfs f.name = some e ∧ (f.isDir = true → e.isDir = true)) :
    (copyDir cfg fs dir).countP isMkdir = 0 ∧
    (copyDir cfg fs dir).countP isCopy = 0 := by
  have hsnap : snapshotOf cfg fs dir = some dfs := by
    unfold snapshotOf
    rw [hsync, hdest]
    rfl
  rw [copyDir_eq_body hsrc hsnap]
  unfold bodyEvents
  have hstat := statEvents_counts cfg fs dir
  have hflat := flatMap_noop cfg fs dir dfs hsync files hcov
  constructor <;>
    simp [List.countP_append, List.countP_cons, hflat.1, hflat.2,
      hstat.1, hstat.2.1, isMkdir, isCopy]

/-- Source and destination filesystem of the idempotence witness: both
sides hold directory `d` and file `f`. -/
def wFSBoth : FS :=
  ⟨fun d => if d = [] then some [⟨"d", true⟩, ⟨"f", false⟩] else none,
   fun d => if d = [] then some [⟨"d", true⟩, ⟨"f", false⟩] else none,
   fun _ => true, fun _ => true⟩

theorem syncMode_second_run_noop_witness :
    (copyDir wCfgSync wFSBoth []).countP isMkdir = 0 ∧
      (copyDir wCfgSync wFSBoth []).countP isCopy = 0 :=
  syncMode_second_run_noop wCfgSync wFSBoth [] [⟨"d", true⟩, ⟨"f", false⟩]
    [⟨"d", true⟩, ⟨"f", false⟩] rfl (by simp [wFSBoth]) (by simp [wFSBoth])
    (by decide)

/-- C5: for every subdirectory entry of a job, the destination directory
creation is skipped only when sync mode is on AND the snapshot holds a
same-named directory; when creation is attempted and fails, the child job
is never submitted and the counter never incremented; when it succeeds,
or the directory pre-exists, the counter is incremented (wg.Add)
immediately before the child job is submitted. -/
theorem subdir_create_submit (cfg : Config) (fs : FS) (dir : List String)
    (dh : List Entry) (f : Entry) (hdir : f.isDir = true)
    (hdot : ¬(f.name = "." ∨ f.name = "..")) :
    (cfg.optSync = true → destDirExists dh f.name = true →
      entryEvents cfg fs dir dh f = [Event.add, Event.submit (dir ++ [f.name])]) ∧
    ((cfg.optSync = true → destDirExists dh f.name = false) →
      fs.mkdirOk (dir ++ [f.name]) = true →
      entryEvents cfg fs dir dh f =
        [Event.mkdir (dir ++ [f.name]), Event.add, Event.submit (dir ++ [f.name])]) ∧
    ((cfg.optSync = true → destDirExists dh f.name = false) →
      fs.mkdirOk (dir ++ [f.name]) = false →
      entryEvents cfg fs dir dh f = warnUnless cfg.optQuiet ∧
      (entryEvents cfg fs dir dh f).countP isSubmit = 0 ∧
      (entryEvents cfg fs dir dh f).countP isAdd = 0) := by
  refine ⟨?_, ?_, ?_⟩
  · intro hs hdd
    unfold entryEvents
    simp [hdot, hdir, hs, hdd]
  · intro hsd hmk
    unfold entryEvents
    by_cases hs : cfg.optSync = true
    · simp [hdot, hdir, hs, hsd hs, hmk]
    · simp [hdot, hdir, Bool.of_not_eq_true hs, hmk]
  · intro hsd hmk
    have heq : entryEvents cfg fs dir dh f = warnUnless cfg.optQuiet := by
      unfold entryEvents
      by_cases hs : cfg.optSync = true
      · simp [hdot, hdir, hs, hsd hs, hmk]
      · simp [hdot, hdir, Bool.of_not_eq_true hs, hmk]
    refine ⟨heq, ?_, ?_⟩ <;>
      · rw [heq]
        unfold warnUnless
        by_cases hq : cfg.optQuiet = true <;>
          simp [hq, List.countP_cons, isSubmit, isAdd]

theorem subdir_create_submit_witness :
    entryEvents wCfgSync wFSBoth [] [Entry.mk "d" true] (Entry.mk "d" true) =
      [Event.add, Event.submit ["d"]] :=
  (subdir_create_submit wCfgSync wFSBoth [] [Entry.mk "d" true] (Entry.mk "d" true)
    rfl (by decide)).1 rfl (by decide)

/-- C10: entries named "." or ".." are skipped entirely: their own event
list is empty (never copied, never created, never submitted) and removing
them from a listing leaves the job body trace unchanged, in both sync and
non-sync mode. -/
theorem dot_entries_skipped (cfg : Config) (fs : FS) (dir : List String)
    (dh : List Entry) (files : List Entry) :
    (∀ f : Entry, (f.name = "." ∨ f.name = "..") →
      entryEvents cfg fs dir dh f = []) ∧
    bodyEvents cfg fs dir
      (files.filter (fun f => !(f.name == "." || f.name == ".."))) dh =
      bodyEvents cfg fs dir files dh := by
  constructor
  · intro f hdot
    unfold entryEvents
    rw [if_pos hdot]
  · unfold bodyEvents
    congr 1
    induction files with
    | nil => rfl
    | cons f rest ih =>
        by_cases hdot : (f.name = "." ∨ f.name = "..")
        · have hskip : entryEvents cfg fs dir dh f = [] := by
            unfold entryEvents
            rw [if_pos hdot]
          have hb : (f.name == "." || f.name == "..") = true := by
            rcases hdot with h | h <;> simp [h]
          rw [List.filter_cons, if_neg (by simp [hb]), ih, List.flatMap_cons, hskip]
          rfl
        · obtain ⟨h1, h2⟩ := not_or.mp hdot
          have hb : (f.name == "." || f.name == "..") = false := by
            simp [h1, h2]
          rw [List.filter_cons, if_pos (by simp [hb]), List.flatMap_cons,
            List.flatMap_cons, ih]

theorem dot_entries_skipped_witness :
    entryEvents wCfgSync wFSBoth [] [] ⟨".", true⟩ = [] :=
  (dot_entries_skipped wCfgSync wFSBoth [] [] []).1 ⟨".", true⟩ (Or.inl rfl)

/-- Scanner: does a `submit p` event occur in the trace with a `copy q`
event somewhere after it? -/
def submitThenCopy (p q : List String) : List Event → Bool
  | [] => false
  | Event.submit r :: rest =>
      (decide (r = p) && rest.any (fun e => decide (e = Event.copy q))) ||
        submitThenCopy p q rest
  | _ :: rest => submitThenCopy p q rest

theorem submitThenCopy_append_right (p q : List String) (l₁ l₂ : List Event)
    (h : submitThenCopy p q l₂ = true) : submitThenCopy p q (l₁ ++ l₂) = true := by
  induction l₁ with
  | nil => exact h
  | cons e rest ih =>
      cases e <;> simp [submitThenCopy, ih]

theorem submitThenCopy_hit (p q : List String) (pre rest : List Event)
    (hmem : Event.copy q ∈ rest) :
    submitThenCopy p q (pre ++ (Event.submit p :: rest)) = true := by
  apply submitThenCopy_append_right
  simp only [submitThenCopy, Bool.or_eq_true, Bool.and_eq_true]
  exact Or.inl ⟨by simp, by rw [List.any_eq_true]; exact ⟨Event.copy q, hmem, by simp⟩⟩

/-- In every branch of the per-entry code that submits a child job, the
submission is the last event of that entry's contribution. -/
theorem submit_shape (cfg : Config) (fs : FS) (dir : List String) (dh : List Entry)
    (d : Entry) (P : List String)
    (h : Event.submit P ∈ entryEvents cfg fs dir dh d) :
    ∃ pre, entryEvents cfg fs dir dh d = pre ++ [Event.submit P] := by
  unfold entryEvents at h ⊢
  by_cases hdot : (d.name = "." ∨ d.name = "..")
  · rw [if_pos hdot] at h
    exact absurd h (List.not_mem_nil _)
  · rw [if_neg hdot] at h ⊢
    by_cases hd : d.isDir = true
    · rw [if_pos hd] at h ⊢
      by_cases hg : (!cfg.optSync || !destDirExists dh d.name) = true
      · rw [if_pos hg] at h ⊢
        by_cases hmk : fs.mkdirOk (dir ++ [d.name]) = true
        · rw [if_pos hmk] at h ⊢
          have hp : P = dir ++ [d.name] := by
            simpa using h
          subst hp
          exact ⟨[Event.mkdir (dir ++ [d.name]), Event.add], rfl⟩
        · rw [if_neg hmk] at h
          unfold warnUnless at h
          by_cases hq : cfg.optQuiet = true
          · rw [if_pos hq] at h
            exact absurd h (List.not_mem_nil _)
          · rw [if_neg hq] at h
            simp at h
      · rw [if_neg hg] at h ⊢
        have hp : P = dir ++ [d.name] := by
          simpa using h
        subst hp
        exact ⟨[Event.add], rfl⟩
    · rw [if_neg hd] at h
      by_cases hc : (!cfg.optSync || (lookupDest dh d.name).isNone) = true
      · rw [if_pos hc] at h
        simp at h
      · rw [if_neg hc] at h
        exact absurd h (List.not_mem_nil _)

/-- C3 amended: copyDir handles all entries of a listing in ONE pass, in
listing order; the child job of a subdirectory entry is therefore
submitted before any file appearing later in the listing is copied. -/
theorem copyDir_submit_before_later_copy (cfg : Config) (fs : FS)
    (dir : List String) (dh : List Entry) (l₁ l₂ l₃ : List Entry) (d f : Entry)
    (hsrc : fs.srcList dir = some (l₁ ++ d :: (l₂ ++ f :: l₃)))
    (hsnap : snapshotOf cfg fs dir = some dh)
    (hsub : Event.submit (dir ++ [d.name]) ∈ entryEvents cfg fs dir dh d)
    (hcopy : Event.copy (dir ++ [f.name]) ∈ entryEvents cfg fs dir dh f) :
    submitThenCopy (dir ++ [d.name]) (dir ++ [f.name]) (copyDir cfg fs dir) = true := by
  rw [copyDir_eq_body hsrc hsnap]
  unfold bodyEvents
  obtain ⟨pre, hpre⟩ := submit_shape cfg fs dir dh d (dir ++ [d.name]) hsub
  rw [List.flatMap_append, List.flatMap_cons, hpre]
  have hmem : Event.copy (dir ++ [f.name]) ∈
      ((l₂ ++ f :: l₃).flatMap (entryEvents cfg fs dir dh) ++
        statEvents cfg fs dir ++ [Event.done]) := by
    apply List.mem_append_left
    apply List.mem_append_left
    rw [List.flatMap_append, List.flatMap_cons]
    exact List.mem_append_right _ (List.mem_append_left _ hcopy)
  have key := submitThenCopy_hit (dir ++ [d.name]) (dir ++ [f.name])
    (l₁.flatMap (entryEvents cfg fs dir dh) ++ pre)
    ((l₂ ++ f :: l₃).flatMap (entryEvents cfg fs dir dh) ++
      statEvents cfg fs dir ++ [Event.done]) hmem
  simpa [List.append_assoc] using key

/-- Non-sync, non-quiet configuration used by the ordering
counterexample. -/
def cexCfg : Config := ⟨false, false, false, false⟩

/-- Filesystem whose root listing is [file "a", dir "b"]: the file comes
first in listing order. -/
def cexFS : FS :=
  ⟨fun d => if d = [] then some [⟨"a", false⟩, ⟨"b", true⟩] else none,
   fun _ => none, fun _ => true, fun _ => true⟩

/-- Formalization of claim C3 as stated: whenever a listing contains both
a subdirectory entry whose child job is submitted and a file entry that
is copied, the submission precedes the copy in the trace — regardless of
their relative positions in the listing (two-pass processing). -/
def twoPassClaim : Prop :=
  ∀ (cfg : Config) (fs : FS) (dir : List String) (files dh : List Entry) (d f : Entry),
    fs.srcList dir = some files → snapshotOf cfg fs dir = some dh →
    d ∈ files → f ∈ files →
    Event.submit (dir ++ [d.name]) ∈ entryEvents cfg fs dir dh d →
    Event.copy (dir ++ [f.name]) ∈ entryEvents cfg fs dir dh f →
    submitThenCopy (dir ++ [d.name]) (dir ++ [f.name]) (copyDir cfg fs dir) = true

/-- C3 counterexample: with root listing [file "a", dir "b"] the file is
copied BEFORE the subdirectory's child job is submitted — copyDir is a
single pass in listing order, not directories-first. -/
theorem copyDir_two_pass_cex : ¬ twoPassClaim := by
  intro hcl
  have h := hcl cexCfg cexFS [] [⟨"a", false⟩, ⟨"b", true⟩] [] ⟨"b", true⟩ ⟨"a", false⟩
    (by rfl) rfl (by simp) (by simp) (by decide) (by decide)
  exact absurd h (by decide)

/-- Filesystem whose root listing is [dir "b", file "a"]: the directory
comes first in listing order. -/
def wFSOrder : FS :=
  ⟨fun d => if d = [] then some [⟨"b", true⟩, ⟨"a", false⟩] else none,
   fun _ => none, fun _ => true, fun _ => true⟩

theorem copyDir_submit_before_later_copy_witness :
    submitThenCopy ["b"] ["a"] (copyDir cexCfg wFSOrder []) = true :=
  copyDir_submit_before_later_copy cexCfg wFSOrder [] [] [] [] [] ⟨"b", true⟩
    ⟨"a", false⟩ (by rfl) rfl (by decide) (by decide)

/-! ## Part 3: byte-level copyFile for regular files (src/psync.go)

The regular-file branch of copyFile opens the destination with
`os.OpenFile(dest+file, os.O_WRONLY|os.O_CREATE, perm)` — no `O_TRUNC` —
and then runs `io.CopyBuffer(wr, rd, buffer[id][:])` with a 64 KiB
buffer, i.e. sequential chunked writes starting at offset 0 over whatever
content the destination file already had. -/

/-- `BUFSIZE` from src/psync.go: the size of the copy buffer (64 kB). -/
def BUFSIZE : Nat := 64 * 1024

/-- One `Write` of `chunk` into file content `dst` at offset `off`; the
bytes beyond the written region keep their old values. -/
def writeAt (dst : List Nat) (off : Nat) (chunk : List Nat) : List Nat :=
  dst.take off ++ chunk ++ dst.drop (off + chunk.length)

/-- The io.CopyBuffer loop: read up to BUFSIZE bytes from the remaining
source, write them at the current offset, repeat until the source is
exhausted.  The destination is never truncated. -/
def copyLoop (srcBytes dst : List Nat) (off : Nat) : List Nat :=
  if h : srcBytes = [] then dst
  else
    copyLoop (srcBytes.drop BUFSIZE) (writeAt dst off (srcBytes.take BUFSIZE))
      (off + (srcBytes.take BUFSIZE).length)
termination_by srcBytes.length
decreasing_by
  have hb : 0 < BUFSIZE := by norm_num [BUFSIZE]
  have hl : 0 < srcBytes.length := List.length_pos.mpr h
  simp only [List.length_drop]
  omega

/-- Content of the destination file after copyFile's regular-file branch:
the old content (empty for a freshly created file) overwritten from
offset 0 with the source bytes, with no truncation. -/
def copyFileContent (srcBytes : List Nat) (old : Option (List Nat)) : List Nat :=
  copyLoop srcBytes (old.getD []) 0

theorem copyLoop_spec (n : Nat) : ∀ (srcBytes dst : List Nat) (off : Nat),
    srcBytes.length ≤ n → off ≤ dst.length →
    copyLoop srcBytes dst off =
      dst.take off ++ srcBytes ++ dst.drop (off + srcBytes.length) := by
  induction n with
  | zero =>
      intro src dst off hlen hoff
      have hnil : src = [] := List.length_eq_zero.mp (Nat.le_zero.mp hlen)
      subst hnil
      rw [copyLoop]
      simp [List.take_append_drop]
  | succ n ih =>
      intro src dst off hlen hoff
      by_cases h : src = []
      · subst h
        rw [copyLoop]
        simp [List.take_append_drop]
      · rw [copyLoop, dif_neg h]
        have hb : 0 < BUFSIZE := by norm_num [BUFSIZE]
        have hl : 0 < src.length := List.length_pos.mpr h
        have hclen : (src.take BUFSIZE).length = min BUFSIZE src.length :=
          List.length_take BUFSIZE src
        have hrlen : (src.drop BUFSIZE).length = src.length - BUFSIZE :=
          List.length_drop BUFSIZE src
        have htdst : (dst.take off).length = off := by
          rw [List.length_take]
          omega
        have hwlen : off + (src.take BUFSIZE).length ≤
            (writeAt dst off (src.take BUFSIZE)).length := by
          unfold writeAt
          simp [List.length_append, htdst]
        have hrec := ih (src.drop BUFSIZE) (writeAt dst off (src.take BUFSIZE))
          (off + (src.take BUFSIZE).length) (by omega) hwlen
        rw [hrec]
        unfold writeAt
        have htake : (dst.take off ++ src.take BUFSIZE ++
            dst.drop (off + (src.take BUFSIZE).length)).take
              (off + (src.take BUFSIZE).length) =
            dst.take off ++ src.take BUFSIZE := by
          rw [List.append_assoc, List.take_append_eq_append_take, htdst]
          rw [List.take_of_length_le (by omega : (dst.take off).length ≤ off + (src.take BUFSIZE).length)]
          rw [List.take_append_eq_append_take]
          rw [List.take_of_length_le (by omega : (src.take BUFSIZE).length ≤ off + (src.take BUFSIZE).length - off)]
          have : off + (src.take BUFSIZE).length - off - (src.take BUFSIZE).length = 0 := by omega
          rw [this, List.take_zero, List.append_nil]
        have hdrop : (dst.take off ++ src.take BUFSIZE ++
            dst.drop (off + (src.take BUFSIZE).length)).drop
              (off + (src.take BUFSIZE).length + (src.drop BUFSIZE).length) =
            dst.drop (off + src.length) := by
          rw [List.append_assoc, List.drop_append_eq_append_drop, htdst]
          rw [List.drop_of_length_le (by omega : (dst.take off).length ≤
            off + (src.take BUFSIZE).length + (src.drop BUFSIZE).length)]
          rw [List.drop_append_eq_append_drop]
          rw [List.drop_of_length_le (by omega : (src.take BUFSIZE).length ≤
            off + (src.take BUFSIZE).length + (src.drop BUFSIZE).length - off)]
          rw [List.nil_append, List.nil_append, List.drop_drop]
          congr 1
          omega
        rw [htake, hdrop,
          List.append_assoc (dst.take off) (src.take BUFSIZE) (src.drop BUFSIZE),
          List.take_append_drop]

/-- C9: copying a regular file onto an existing destination file does not
truncate it: the result is the source content followed by the old tail
beyond the source's length; in particular, when the old destination file
is longer than the source, the result is NOT byte-identical to the
source. -/
theorem copyFile_no_truncate (srcBytes oldBytes : List Nat) :
    copyFileContent srcBytes (some oldBytes) =
      srcBytes ++ oldBytes.drop srcBytes.length ∧
    (srcBytes.length < oldBytes.length →
      copyFileContent srcBytes (some oldBytes) ≠ srcBytes) := by
  have h := copyLoop_spec srcBytes.length srcBytes oldBytes 0 le_rfl (Nat.zero_le _)
  have heq : copyFileContent srcBytes (some oldBytes) =
      srcBytes ++ oldBytes.drop srcBytes.length := by
    unfold copyFileContent
    simpa using h
  refine ⟨heq, ?_⟩
  intro hlt hbad
  rw [heq] at hbad
  have hlen := congrArg List.length hbad
  simp [List.length_append, List.length_drop] at hlen
  omega

theorem copyFile_no_truncate_witness :
    copyFileContent [1] (some [2, 3]) = [1, 3] ∧
      copyFileContent [1] (some [2, 3]) ≠ [1] :=
  ⟨((copyFile_no_truncate [1] [2, 3]).1).trans rfl,
    (copyFile_no_truncate [1] [2, 3]).2 (by norm_num)⟩

/-! ## Part 4: the outstanding-job counter (sync.WaitGroup wg)

The engine is modelled as a transition system: `pending` are the jobs
submitted to the queue and not yet picked up, `running` holds, for each
busy worker, the remaining suffix of its job's copyDir event trace, and
`counter` is the WaitGroup counter.  `main` does `wg.Add(1); dch <- ""`
before any worker runs, which is the initial state. -/

/-- Effect of one copyDir event on the WaitGroup counter. -/
def evCounter : Event → Int
  | Event.add => 1
  | Event.done => -1
  | _ => 0

/-- Jobs submitted to the dispatcher channel by one event. -/
def evSubmits : Event → List (List String)
  | Event.submit p => [p]
  | _ => []

structure EngineState where
  counter : Int
  pending : List (List String)
  running : List (List Event)

/-- State after `wg.Add(1); dch <- ""` in main: counter 1, the root job
(path `[]`) queued, no worker busy. -/
def initEngine : EngineState := ⟨1, [[]], []⟩

/-- Engine transitions: a worker picks a pending job (its whole copyDir
trace becomes the worker's remaining work), a worker performs the next
event of its trace (updating the counter on Add/Done and the queue on
submissions), or a finished trace is retired. -/
inductive EngineStep (cfg : Config) (fs : FS) : EngineState → EngineState → Prop where
  | start (c : Int) (p₁ p₂ : List (List String)) (j : List String)
      (r : List (List Event)) :
      EngineStep cfg fs ⟨c, p₁ ++ j :: p₂, r⟩ ⟨c, p₁ ++ p₂, copyDir cfg fs j :: r⟩
  | exec (c : Int) (p : List (List String)) (r₁ r₂ : List (List Event))
      (e : Event) (t : List Event) :
      EngineStep cfg fs ⟨c, p, r₁ ++ (e :: t) :: r₂⟩
        ⟨c + evCounter e, p ++ evSubmits e, r₁ ++ t :: r₂⟩
  | retire (c : Int) (p : List (List String)) (r₁ r₂ : List (List Event)) :
      EngineStep cfg fs ⟨c, p, r₁ ++ [] :: r₂⟩ ⟨c, p, r₁ ++ r₂⟩

def EngineReach (cfg : Config) (fs : FS) (s : EngineState) : Prop :=
  Relation.ReflTransGen (EngineStep cfg fs) initEngine s

/-- Does the trace start with a submission? -/
def headSubmit : List Event → Bool
  | Event.submit _ :: _ => true
  | _ => false

/-- Every wg.Add(1) in the trace is immediately followed by a job
submission (suffix-closed form, used for the running invariant). -/
def addOk : List Event → Bool
  | [] => true
  | Event.add :: rest => headSubmit rest && addOk rest
  | _ :: rest => addOk rest

/-- Adds and submissions are strictly paired: every wg.Add(1) is
immediately followed by a submission and every submission immediately
preceded by a wg.Add(1).  This is the "incremented exactly once before
every job submission" discipline of the source. -/
def pairedOk : List Event → Bool
  | [] => true
  | Event.add :: Event.submit _ :: rest => pairedOk rest
  | Event.add :: _ => false
  | Event.submit _ :: _ => false
  | _ :: rest => pairedOk rest

/-- Net effect on the counter of still executing the remaining trace `t`
and completing the jobs it will submit: each future Done is -1 already
accounted as +1 at submission (or at job start), each future submission
will add a pending job, each future Add is +1 not yet performed. -/
def phi (t : List Event) : Int :=
  (t.countP isDone : Int) + (t.countP isSubmit : Int) - (t.countP isAdd : Int)

def phiSum (r : List (List Event)) : Int := (r.map phi).sum

/-- Shape invariant of a remaining trace: adds immediately followed by
submissions, and (unless already finished) exactly one Done, sitting at
the very end. -/
def GoodRem (t : List Event) : Prop :=
  addOk t = true ∧
  (t ≠ [] → t.getLast? = some Event.done ∧ t.countP isDone = 1)

/-- Engine invariant: the counter equals the number of pending jobs plus
the potential of every remaining trace, and every remaining trace is
well-shaped. -/
def EngineInv (s : EngineState) : Prop :=
  s.counter = (s.pending.length : Int) + phiSum s.running ∧
  ∀ t ∈ s.running, GoodRem t

theorem entry_static (cfg : Config) (fs : FS) (dir : List String) (dh : List Entry)
    (f : Entry) :
    (∀ rest, addOk (entryEvents cfg fs dir dh f ++ rest) = addOk rest) ∧
    (∀ rest, pairedOk (entryEvents cfg fs dir dh f ++ rest) = pairedOk rest) ∧
    (entryEvents cfg fs dir dh f).countP isDone = 0 ∧
    (entryEvents cfg fs dir dh f).countP isAdd =
      (entryEvents cfg fs dir dh f).countP isSubmit := by
  unfold entryEvents warnUnless
  by_cases hdot : (f.name = "." ∨ f.name = "..") <;>
    by_cases hd : f.isDir = true <;>
      by_cases hg : (!cfg.optSync || !destDirExists dh f.name) = true <;>
        by_cases hmk : fs.mkdirOk (dir ++ [f.name]) = true <;>
          by_cases hc : (!cfg.optSync || (lookupDest dh f.name).isNone) = true <;>
            by_cases hq : cfg.optQuiet = true <;>
              simp [hdot, hd, hg, hmk, hc, hq, addOk, headSubmit, pairedOk,
                List.countP_cons, isDone, isAdd, isSubmit]

theorem stat_static (cfg : Config) (fs : FS) (dir : List String) :
    (∀ rest, addOk (statEvents cfg fs dir ++ rest) = addOk rest) ∧
    (∀ rest, pairedOk (statEvents cfg fs dir ++ rest) = pairedOk rest) ∧
    (statEvents cfg fs dir).countP isDone = 0 ∧
    (statEvents cfg fs dir).countP isAdd = 0 ∧
    (statEvents cfg fs dir).countP isSubmit = 0 := by
  unfold statEvents warnUnless
  by_cases h1 : fs.statOk dir = true <;>
    by_cases h2 : cfg.optOwner = true <;>
      by_cases h3 : cfg.optTimes = true <;>
        by_cases h4 : cfg.optQuiet = true <;>
          simp [h1, h2, h3, h4, addOk, headSubmit, pairedOk,
            List.countP_cons, List.countP_append, isDone, isAdd, isSubmit]

theorem flat_static (cfg : Config) (fs : FS) (dir : List String) (dh : List Entry) :
    ∀ files : List Entry,
      (∀ rest, addOk (files.flatMap (entryEvents cfg fs dir dh) ++ rest) = addOk rest) ∧
      (∀ rest, pairedOk (files.flatMap (entryEvents cfg fs dir dh) ++ rest) = pairedOk rest) ∧
      (files.flatMap (entryEvents cfg fs dir dh)).countP isDone = 0 ∧
      (files.flatMap (entryEvents cfg fs dir dh)).countP isAdd =
        (files.flatMap (entryEvents cfg fs dir dh)).countP isSubmit := by
  intro files
  induction files with
  | nil => exact ⟨fun rest => rfl, fun rest => rfl, rfl, rfl⟩
  | cons f rest2 ih =>
      obtain ⟨iha, ihp, ihd, ihc⟩ := ih
      obtain ⟨ea, ep, ed, ec⟩ := entry_static cfg fs dir dh f
      refine ⟨?_, ?_, ?_, ?_⟩
      · intro rest
        rw [List.flatMap_cons, List.append_assoc, ea, iha]
      · intro rest
        rw [List.flatMap_cons, List.append_assoc, ep, ihp]
      · rw [List.flatMap_cons, List.countP_append, ed, ihd]
      · rw [List.flatMap_cons, List.countP_append, List.countP_append, ec, ihc]

theorem copyDir_static (cfg : Config) (fs : FS) (dir : List String) :
    addOk (copyDir cfg fs dir) = true ∧
    pairedOk (copyDir cfg fs dir) = true ∧
    (copyDir cfg fs dir).countP isDone = 1 ∧
    (copyDir cfg fs dir).getLast? = some Event.done ∧
    (copyDir cfg fs dir).countP isAdd = (copyDir cfg fs dir).countP isSubmit := by
  rcases hsrc : fs.srcList dir with _ | files
  · have heq : copyDir cfg fs dir = warnUnless cfg.optQuiet ++ [Event.done] := by
      unfold copyDir
      rw [hsrc]
    rw [heq]
    unfold warnUnless
    by_cases hq : cfg.optQuiet = true <;>
      simp [hq, addOk, pairedOk, headSubmit, List.countP_cons,
        isDone, isAdd, isSubmit, List.getLast?_concat]
  · rcases hsnap : snapshotOf cfg fs dir with _ | dh
    · have heq : copyDir cfg fs dir = warnUnless cfg.optQuiet ++ [Event.done] := by
        unfold copyDir
        rw [hsrc, hsnap]
      rw [heq]
      unfold warnUnless
      by_cases hq : cfg.optQuiet = true <;>
        simp [hq, addOk, pairedOk, headSubmit, List.countP_cons,
          isDone, isAdd, isSubmit, List.getLast?_concat]
    · rw [copyDir_eq_body hsrc hsnap]
      obtain ⟨fa, fp, fd, fc⟩ := flat_static cfg fs dir dh files
      obtain ⟨sa, sp, sd, sad, ssu⟩ := stat_static cfg fs dir
      unfold bodyEvents
      refine ⟨?_, ?_, ?_, ?_, ?_⟩
      · rw [List.append_assoc, fa, sa]
        rfl
      · rw [List.append_assoc, fp, sp]
        rfl
      · rw [List.append_assoc, List.countP_append, fd, List.countP_append, sd]
        rfl
      · rw [List.getLast?_concat]
      · rw [List.append_assoc, List.countP_append, List.countP_append,
          List.countP_append, List.countP_append, fc, sad, ssu]
        simp [List.countP_cons, isAdd, isSubmit]

/-- In a trace where every Add is immediately followed by a submission,
the number of Adds is at most the number of submissions (true for every
suffix, which is what the engine invariant needs). -/
theorem addOk_le (n : Nat) : ∀ l : List Event, l.length ≤ n → addOk l = true →
    l.countP isAdd ≤ l.countP isSubmit := by
  induction n with
  | zero =>
      intro l hl _
      have hnil : l = [] := List.length_eq_zero.mp (Nat.le_zero.mp hl)
      subst hnil
      simp
  | succ n ih =>
      intro l hl h
      rcases l with _ | ⟨e, rest⟩
      · simp
      · cases e with
        | add =>
            rw [addOk, Bool.and_eq_true] at h
            obtain ⟨h1, h2⟩ := h
            rcases rest with _ | ⟨e2, rest2⟩
            · simp [headSubmit] at h1
            · cases e2 <;> simp [headSubmit] at h1
              have h3 : addOk rest2 = true := by
                simpa [addOk] using h2
              have hlen : rest2.length ≤ n := by
                simp at hl
                omega
              have hle := ih rest2 hlen h3
              simp [List.countP_cons, isAdd, isSubmit]
              omega
        | done =>
            have h2 : addOk rest = true := by simpa [addOk] using h
            have hle := ih rest (by simp at hl; omega) h2
            simp [List.countP_cons, isAdd, isSubmit]
            omega
        | warn =>
            have h2 : addOk rest = true := by simpa [addOk] using h
            have hle := ih rest (by simp at hl; omega) h2
            simp [List.countP_cons, isAdd, isSubmit]
            omega
        | submit p =>
            have h2 : addOk rest = true := by simpa [addOk] using h
            have hle := ih rest (by simp at hl; omega) h2
            simp [List.countP_cons, isAdd, isSubmit]
            omega
        | mkdir p =>
            have h2 : addOk rest = true := by simpa [addOk] using h
            have hle := ih rest (by simp at hl; omega) h2
            simp [List.countP_cons, isAdd, isSubmit]
            omega
        | copy p =>
            have h2 : addOk rest = true := by simpa [addOk] using h
            have hle := ih rest (by simp at hl; omega) h2
            simp [List.countP_cons, isAdd, isSubmit]
            omega
        | preserveOwner =>
            have h2 : addOk rest = true := by simpa [addOk] using h
            have hle := ih rest (by simp at hl; omega) h2
            simp [List.countP_cons, isAdd, isSubmit]
            omega
        | preserveTimes =>
            have h2 : addOk rest = true := by simpa [addOk] using h
            have hle := ih rest (by simp at hl; omega) h2
            simp [List.countP_cons, isAdd, isSubmit]
            omega

theorem addOk_tail {e : Event} {t : List Event} (h : addOk (e :: t) = true) :
    addOk t = true := by
  cases e with
  | add =>
      have h2 : headSubmit t = true ∧ addOk t = true := by simpa [addOk] using h
      exact h2.2
  | done => simpa [addOk] using h
  | warn => simpa [addOk] using h
  | submit p => simpa [addOk] using h
  | mkdir p => simpa [addOk] using h
  | copy p => simpa [addOk] using h
  | preserveOwner => simpa [addOk] using h
  | preserveTimes => simpa [addOk] using h

theorem goodRem_tail {e : Event} {t : List Event} (h : GoodRem (e :: t)) :
    GoodRem t := by
  obtain ⟨ha, hd⟩ := h
  refine ⟨addOk_tail ha, ?_⟩
  intro hne
  obtain ⟨hl, hc⟩ := hd (by simp)
  rcases t with _ | ⟨x, t2⟩
  · exact absurd rfl hne
  · rw [List.getLast?_cons_cons] at hl
    refine ⟨hl, ?_⟩
    have hmem : Event.done ∈ (x :: t2) := List.mem_of_mem_getLast? (by simp [hl])
    have hpos : 0 < (x :: t2).countP isDone :=
      List.countP_pos.mpr ⟨Event.done, hmem, rfl⟩
    rw [List.countP_cons] at hc
    cases he : isDone e with
    | false =>
        rw [he] at hc
        simpa using hc
    | true =>
        rw [he, if_pos rfl] at hc
        omega

theorem goodRem_phi {t : List Event} (h : GoodRem t) :
    0 ≤ phi t ∧ (t ≠ [] → 1 ≤ phi t) := by
  have hle := addOk_le t.length t le_rfl h.1
  constructor
  · unfold phi
    omega
  · intro hne
    have hc : t.countP isDone = 1 := (h.2 hne).2
    unfold phi
    omega

theorem phiSum_mid (r₁ r₂ : List (List Event)) (x : List Event) :
    phiSum (r₁ ++ x :: r₂) = phiSum r₁ + phi x + phiSum r₂ := by
  unfold phiSum
  rw [List.map_append, List.sum_append, List.map_cons, List.sum_cons]
  ring

theorem phiSum_append (r₁ r₂ : List (List Event)) :
    phiSum (r₁ ++ r₂) = phiSum r₁ + phiSum r₂ := by
  unfold phiSum
  rw [List.map_append, List.sum_append]

theorem copyDir_phi (cfg : Config) (fs : FS) (dir : List String) :
    phi (copyDir cfg fs dir) = 1 := by
  obtain ⟨_, _, hd, _, hc⟩ := copyDir_static cfg fs dir
  unfold phi
  rw [hd, hc]
  ring

theorem copyDir_good (cfg : Config) (fs : FS) (dir : List String) :
    GoodRem (copyDir cfg fs dir) := by
  obtain ⟨ha, _, hd, hl, _⟩ := copyDir_static cfg fs dir
  exact ⟨ha, fun _ => ⟨hl, hd⟩⟩

theorem engineInv_step {cfg : Config} {fs : FS} {s s' : EngineState}
    (h : EngineStep cfg fs s s') (hinv : EngineInv s) : EngineInv s' := by
  obtain ⟨hc, hg⟩ := hinv
  cases h with
  | start c p₁ p₂ j r =>
      have hc2 : c = ((p₁ ++ j :: p₂).length : Int) + phiSum r := hc
      have hg2 : ∀ t ∈ r, GoodRem t := hg
      constructor
      · show c = ((p₁ ++ p₂).length : Int) + phiSum (copyDir cfg fs j :: r)
        have hphi : phi (copyDir cfg fs j) = 1 := copyDir_phi cfg fs j
        have hsum : phiSum (copyDir cfg fs j :: r) = 1 + phiSum r := by
          unfold phiSum
          rw [List.map_cons, List.sum_cons, hphi]
        rw [hsum, hc2]
        simp [List.length_append]
        omega
      · intro t ht
        rcases List.mem_cons.mp ht with heq | ht2
        · rw [heq]
          exact copyDir_good cfg fs j
        · exact hg2 t ht2
  | exec c p r₁ r₂ e t =>
      have hgood : GoodRem (e :: t) :=
        hg (e :: t) (List.mem_append_right _ (List.mem_cons_self _ _))
      constructor
      · show c + evCounter e =
          ((p ++ evSubmits e).length : Int) + phiSum (r₁ ++ t :: r₂)
        have hc2 : c = (p.length : Int) + phiSum (r₁ ++ (e :: t) :: r₂) := hc
        rw [phiSum_mid] at hc2
        rw [phiSum_mid, hc2]
        have hkey : evCounter e + phi (e :: t) = ((evSubmits e).length : Int) + phi t := by
          cases e <;>
            simp [evCounter, evSubmits, phi, List.countP_cons,
              isDone, isSubmit, isAdd] <;>
            ring
        simp [List.length_append]
        omega
      · intro u hu
        rcases List.mem_append.mp hu with h1 | h2
        · exact hg u (List.mem_append_left _ h1)
        · rcases List.mem_cons.mp h2 with heq | h3
          · rw [heq]
            exact goodRem_tail hgood
          · exact hg u (List.mem_append_right _ (List.mem_cons_of_mem _ h3))
  | retire c p r₁ r₂ =>
      constructor
      · show c = (p.length : Int) + phiSum (r₁ ++ r₂)
        have hc2 : c = (p.length : Int) + phiSum (r₁ ++ [] :: r₂) := hc
        rw [phiSum_mid] at hc2
        rw [phiSum_append, hc2]
        unfold phi
        simp
      · intro u hu
        rcases List.mem_append.mp hu with h1 | h2
        · exact hg u (List.mem_append_left _ h1)
        · exact hg u (List.mem_append_right _ (List.mem_cons_of_mem _ h2))

theorem engineInv_reach {cfg : Config} {fs : FS} {s : EngineState}
    (h : EngineReach cfg fs s) : EngineInv s := by
  induction h with
  | refl =>
      constructor
      · show (1 : Int) = ((1 : Nat) : Int) + phiSum []
        simp [phiSum]
      · intro t ht
        exact absurd ht (List.not_mem_nil t)
  | tail _ hstep ih => exact engineInv_step hstep ih

/-- C2: the outstanding counter is incremented exactly once immediately
before every job submission (`pairedOk`; the root job's increment is the
initial state of `main`), and decremented exactly once — as the final
event — on every execution path of a per-directory run (one Done, at the
very end, for EVERY filesystem, which covers the source-listing-failure
and sync-mode destination-listing-failure paths); consequently, in every
reachable engine state the counter is never negative, and it is zero
exactly when every submitted job has been fully processed. -/
theorem copyDir_counter_discipline (cfg : Config) (fs : FS) (s : EngineState)
    (h : EngineReach cfg fs s) :
    0 ≤ s.counter ∧
    (s.counter = 0 ↔ s.pending = [] ∧ ∀ t ∈ s.running, t = []) ∧
    (∀ dir, (copyDir cfg fs dir).countP isDone = 1) ∧
    (∀ dir, (copyDir cfg fs dir).getLast? = some Event.done) ∧
    (∀ dir, pairedOk (copyDir cfg fs dir) = true) := by
  obtain ⟨hc, hg⟩ := engineInv_reach h
  have hphis : ∀ t ∈ s.running, 0 ≤ phi t := fun t ht => (goodRem_phi (hg t ht)).1
  have hsum : 0 ≤ phiSum s.running := by
    unfold phiSum
    apply List.sum_nonneg
    intro x hx
    obtain ⟨t, ht, rfl⟩ := List.mem_map.mp hx
    exact hphis t ht
  have hlen : (0 : Int) ≤ (s.pending.length : Int) := Int.natCast_nonneg _
  refine ⟨?_, ?_, ?_, ?_, ?_⟩
  · rw [hc]
    omega
  · constructor
    · intro h0
      rw [hc] at h0
      have hp0 : s.pending.length = 0 := by omega
      refine ⟨List.length_eq_zero.mp hp0, ?_⟩
      intro t ht
      by_contra hne
      have h1 : 1 ≤ phi t := (goodRem_phi (hg t ht)).2 hne
      have hle : phi t ≤ phiSum s.running := by
        unfold phiSum
        apply List.single_le_sum
        · intro x hx
          obtain ⟨u, hu, rfl⟩ := List.mem_map.mp hx
          exact hphis u hu
        · exact List.mem_map_of_mem phi ht
      omega
    · rintro ⟨hp, hr⟩
      have hz : phiSum s.running = 0 := by
        unfold phiSum
        apply List.sum_eq_zero
        intro x hx
        obtain ⟨u, hu, rfl⟩ := List.mem_map.mp hx
        rw [hr u hu]
        rfl
      rw [hc, hp, hz]
      rfl
  · intro dir
    exact (copyDir_static cfg fs dir).2.2.1
  · intro dir
    exact (copyDir_static cfg fs dir).2.2.2.1
  · intro dir
    exact (copyDir_static cfg fs dir).2.1

theorem copyDir_counter_discipline_witness :
    0 ≤ initEngine.counter ∧
      (copyDir cexCfg cexFS []).countP isDone = 1 ∧
      pairedOk (copyDir cexCfg cexFS []) = true :=
  ⟨(copyDir_counter_discipline cexCfg cexFS initEngine Relation.ReflTransGen.refl).1,
    (copyDir_counter_discipline cexCfg cexFS initEngine
      Relation.ReflTransGen.refl).2.2.1 [],
    (copyDir_counter_discipline cexCfg cexFS initEngine
      Relation.ReflTransGen.refl).2.2.2.2 []⟩

end Psync
